import Mathlib

/-!
Shallow embedding of the aggregation engine of `pyam` (`pyam/_aggregate.py`).

An indexed series (a `pd.Series` with a MultiIndex) is modelled as a list of
index names together with rows, each row being a tuple of string coordinates
aligned with the names and a rational value (floats are modelled exactly by
rationals).  All functions of `_aggregate.py` are translated directly; helper
functions of the repository that are not part of the provided sources
(`pyam.utils`, `pyam.index`, methods of `IamDataFrame`) are modelled from the
spec, as indicated in their doc comments.
-/

namespace PyamAgg

/-- A row key: coordinates aligned position-wise with the series' index names. -/
abbrev Row := List String

/-- An indexed series: index names plus rows of (key, value).
Models a `pd.Series` with a MultiIndex (values are `ℚ`, modelling floats). -/
structure Series where
  names : List String
  rows : List (Row × Rat)
deriving DecidableEq, Repr

/-- Well-formedness of a series: distinct index names, every key as long as
the name list. Corresponds to a valid `pd.MultiIndex`. -/
def WF (s : Series) : Prop :=
  s.names.Nodup ∧ ∀ p ∈ s.rows, p.1.length = s.names.length

instance : DecidablePred WF := fun s => by
  unfold WF; infer_instance

/-- First-occurrence deduplication (models `pd.unique` / `dict` key sets). -/
def dedup {α : Type} [BEq α] : List α → List α
  | [] => []
  | a :: l => a :: ((dedup l).filter (fun b => !(b == a)))

/-- The coordinate of a row at index name `c` (first matching name). -/
def coord (names : List String) (r : Row) (c : String) : String :=
  ((((names.zip r).find? (fun p => p.1 == c))).map (fun p => p.2)).getD ""

/-- Projection of a row onto a sublist of index names. -/
def proj (names cols : List String) (r : Row) : Row :=
  cols.map (fun c => coord names r c)

/-- Rewrite the coordinate at index name `c` to `x`. -/
def setCoord (names : List String) (r : Row) (c : String) (x : String) : Row :=
  (names.zip r).map (fun p => if p.1 == c then x else p.2)

/-- Association-list lookup (models Python `dict` lookup). -/
def lookupA {β : Type} (m : List (String × β)) (k : String) : Option β :=
  ((m.find? (fun p => p.1 == k))).map (fun p => p.2)

/-- Association-list insert with overwrite (models Python `dict` assignment). -/
def insertA {β : Type} : List (String × β) → String → β → List (String × β)
  | [], k, v => [(k, v)]
  | p :: m, k, v => if p.1 == k then (k, v) :: m else p :: insertA m k v

/-- Modelled from the spec (the container's relabeling helper
`pyam.index.replace_index_values` is not part of the provided sources):
rewrite the `dim` coordinate of a row through `mapping`, leaving unmapped
coordinates unchanged. -/
def replace_index_values (names : List String) (dim : String)
    (mapping : List (String × String)) (r : Row) : Row :=
  (names.zip r).map (fun p =>
    if p.1 == dim then (lookupA mapping p.2).getD p.2 else p.2)

/-- Group rows by their projection onto `cols` and reduce each group's values
with `f` (models `pd.Series.groupby(cols).agg(f)`; group keys appear in order
of first occurrence, abstracting pandas' sorted group order). -/
def groupby (s : Series) (cols : List String) (f : List Rat → Rat) : Series :=
  ⟨cols, (dedup (s.rows.map (fun p => proj s.names cols p.1))).map
    (fun k => (k, f (((s.rows.filter
        (fun p => proj s.names cols p.1 == k))).map (fun p => p.2))))⟩

/-- Errors of the aggregation engine. The source raises `ValueError` with
distinct messages; the spec names them `InvalidArgumentError`,
`UnknownMethodError` and `InconsistentIndexError`. `emptyData` models the
`ValueError` that Python's `max()`/`pd.concat()` raise on empty input. -/
inductive AggError where
  | invalidArgument
  | unknownMethod
  | inconsistentIndex
  | emptyData
deriving DecidableEq, Repr

instance instDecEqExcept {ε α : Type} [DecidableEq ε] [DecidableEq α] :
    DecidableEq (Except ε α) := fun a b =>
  match a, b with
  | .error e, .error f =>
      if h : e = f then .isTrue (by rw [h])
      else .isFalse (fun he => h (by injection he))
  | .error _, .ok _ => .isFalse (fun he => Except.noConfusion he)
  | .ok _, .error _ => .isFalse (fun he => Except.noConfusion he)
  | .ok x, .ok y =>
      if h : x = y then .isTrue (by rw [h])
      else .isFalse (fun he => h (by injection he))

/-- Sum reduction (models `np.sum` over a group). -/
def sumFn (l : List Rat) : Rat := l.sum

/-- Mean reduction. -/
def meanFn (l : List Rat) : Rat := l.sum / l.length

/-- Max reduction (on the nonempty groups produced by `groupby`). -/
def maxFn : List Rat → Rat
  | [] => 0
  | a :: l => l.foldl max a

/-- Min reduction (on the nonempty groups produced by `groupby`). -/
def minFn : List Rat → Rat
  | [] => 0
  | a :: l => l.foldl min a

/-- A method identifier: a name, the distinguished function value `np.sum`,
or an arbitrary already-callable reduction. -/
inductive Method where
  | str (name : String)
  | npSum
  | fn (f : List Rat → Rat)

/-- Modelled from the spec (`pyam.utils.KNOWN_FUNCS` is not part of the
provided sources): the known-name set of reductions — sum, mean, max, min. -/
def KNOWN_FUNCS : List (String × (List Rat → Rat)) :=
  [("sum", sumFn), ("mean", meanFn), ("max", maxFn), ("min", minFn)]

/-- Translate a string to a known method (`_get_method_func`): strings are
looked up in `KNOWN_FUNCS` (unknown names fail), non-strings pass through. -/
def _get_method_func : Method → Except AggError (List Rat → Rat)
  | .str s =>
      match lookupA KNOWN_FUNCS s with
      | some f => .ok f
      | none => .error .unknownMethod
  | .npSum => .ok sumFn
  | .fn f => .ok f

/-- Group-by and aggregate a series by the index names not in `by_`
(`_group_and_agg`). -/
def _group_and_agg (df : Series) (by_ : List String) (method : Method) :
    Except AggError Series :=
  match _get_method_func method with
  | .error e => .error e
  | .ok f => .ok (groupby df (df.names.filter (fun c => !(by_.contains c))) f)

/-- The `variable` argument of the aggregation entry points: a single name
(`isstr`) or a list of names (`islistable`). -/
inductive VarArg where
  | single (v : String)
  | vlist (vs : List String)

/-- Models `pyam.utils.isstr` restricted to the argument forms that occur. -/
def isstr : VarArg → Bool
  | .single _ => true
  | .vlist _ => false

/-- Models `pyam.utils.islistable` restricted to the argument forms that occur. -/
def islistable : VarArg → Bool
  | .single _ => false
  | .vlist _ => true

/-- Does a row's variable coordinate match the `variable` argument? -/
def varArgMatch (varg : VarArg) (c : String) : Bool :=
  match varg with
  | .single v => c == v
  | .vlist vs => vs.contains c

/-- Structural prefix test on character lists (kernel-reducible version of
`List.isPrefixOf`). -/
def listStartsWith : List Char → List Char → Bool
  | [], _ => true
  | _ :: _, [] => false
  | a :: l, b :: m => a == b && listStartsWith l m

/-- Structural prefix test on strings (kernel-reducible version of
`String.isPrefixOf`). -/
def strStartsWith (p s : String) : Bool := listStartsWith p.data s.data

/-- Split a character list on the hierarchy separator. -/
def splitPipeAux (acc : List Char) : List Char → List (List Char)
  | [] => [acc.reverse]
  | c :: rest =>
      if c == '|' then acc.reverse :: splitPipeAux [] rest
      else splitPipeAux (c :: acc) rest

/-- All separator-delimited tokens of a variable name. -/
def splitPipe (v : String) : List (List Char) := splitPipeAux [] v.data

/-- Join tokens with the hierarchy separator. -/
def joinPipe : List (List Char) → List Char
  | [] => []
  | [x] => x
  | x :: xs => x ++ '|' :: joinPipe xs

/-- Number of hierarchy separators in a variable name. -/
def countSep (v : String) : Nat :=
  ((v.data.filter (fun ch => ch == '|'))).length

/-- Modelled from the spec (`pyam.utils.find_depth` is not part of the
provided sources): depth = number of separators + 1. -/
def find_depth (v : String) : Nat := countSep v + 1

/-- Modelled from the spec (`pyam.utils.reduce_hierarchy(v, -1)` is not part
of the provided sources): strip one hierarchy level from a variable name. -/
def reduce_hierarchy (v : String) : String :=
  ⟨joinPipe ((splitPipe v).dropLast)⟩

/-- The distinct variable names present in a series (models `df.variable`). -/
def seriesVariables (s : Series) : List String :=
  dedup (s.rows.map (fun p => coord s.names p.1 "variable"))

/-- Modelled from the spec (`IamDataFrame._variable_components` is not part
of the provided sources): all existing variables matching `v|*` with no
further separator — direct children only. -/
def _variable_components (s : Series) (v : String) : List String :=
  (seriesVariables s).filter
    (fun c => strStartsWith (v ++ "|") c && countSep c == countSep v + 1)

/-- Modelled from the spec (`IamDataFrame._variable_components` with
`level=None`, not part of the provided sources): all existing variables
matching `v|*` at any depth. -/
def variableComponentsAllLevels (s : Series) (v : String) : List String :=
  (seriesVariables s).filter (fun c => strStartsWith (v ++ "|") c)

/-- Modelled from the spec (the container's row selection
`_apply_filters(variable=...)` over literal names is not part of the provided
sources): rows whose variable coordinate is one of `vs`. -/
def applyVariableFilter (s : Series) (vs : List String) : List (Row × Rat) :=
  s.rows.filter (fun p => vs.contains (coord s.names p.1 "variable"))

/-- The child-to-parent mapping built by the list branch of `_aggregate`:
for each listed variable, map each of its components to it (dict semantics). -/
def buildMapping (df : Series) (vs : List String) : List (String × String) :=
  vs.foldl (fun m v =>
    (_variable_components df v).foldl (fun m' c => insertA m' c v) m) []

/-- The relabel-and-reduce tail shared by both branches of `_aggregate`:
select the rows whose variable is a key of `mapping`, rewrite their variable
coordinate through `mapping`, and group-and-aggregate with an empty `by`. -/
def aggregateMapped (df : Series) (mapping : List (String × String))
    (method : Method) : Except AggError Series :=
  _group_and_agg
    ⟨df.names,
      (applyVariableFilter df (mapping.map (fun p => p.1))).map
        (fun p => (replace_index_values df.names "variable" mapping p.1, p.2))⟩
    [] method

/-- Internal implementation of the `aggregate` function (`_aggregate`).
Returns `.ok none` for the log-and-return-nothing path. -/
def _aggregate (df : Series) (varg : VarArg)
    (components : Option (List String)) (method : Method) :
    Except AggError (Option Series) :=
  if islistable varg && components.isSome then .error .invalidArgument
  else
    match varg with
    | .single v =>
        let comps := match components with
          | none => _variable_components df v
          | some l => if l.isEmpty then _variable_components df v else l
        if comps.isEmpty then .ok none
        else
          (aggregateMapped df (comps.foldl (fun m c => insertA m c v) [])
            method).map some
    | .vlist vs => (aggregateMapped df (buildMapping df vs) method).map some

/-- Modelled from the spec (`df.filter(variable=f"{v}|*")` of the container is
not part of the provided sources): restrict to all descendants of `v`. -/
def filterDescendants (s : Series) (v : String) : Series :=
  ⟨s.names, s.rows.filter
    (fun p => strStartsWith (v ++ "|") (coord s.names p.1 "variable"))⟩

/-- Modelled from the spec (`df.append(..., inplace=True)` of the container is
not part of the provided sources): merge a newly computed series into the
working dataset. -/
def appendSeries (a b : Series) : Series := ⟨a.names, a.rows ++ b.rows⟩

/-- Models `pd.concat` of a nonempty list of equally-named series. -/
def concatSeries (l : List Series) : Series :=
  ⟨(l.headD ⟨[], []⟩).names, (l.map (fun s => s.rows)).flatten⟩

/-- The list `[n, n-1, ..., 1]` (models `reversed(range(1, n + 1))`). -/
def countdown : Nat → List Nat
  | 0 => []
  | n + 1 => (n + 1) :: countdown n

/-- Maximum of a list of naturals (models Python `max` on a nonempty list). -/
def maxList (l : List Nat) : Nat := l.foldr max 0

/-- Unwrap the result of the list branch of `_aggregate`, which never takes
the log-and-return-nothing path (the `.ok none` case is unreachable there). -/
def expectSeries : Except AggError (Option Series) → Except AggError Series
  | .ok (some s) => .ok s
  | .ok none => .error .emptyData
  | .error e => .error e

/-- One pass of the bottom-up loop of `_aggregate_recursive` over the listed
depth levels: at each level, the immediate-parent names of that level's
variables are aggregated against the working dataset (modelled from the spec:
`df.aggregate(variable=vars)` of the container invokes the Variable Aggregator
with default method sum), the level's result is appended into the working
dataset, and the per-level results are accumulated in order. -/
def recursiveLevels (working : Series) : List Nat →
    Except AggError (Series × List Series)
  | [] => .ok (working, [])
  | d :: rest => do
      let vars := dedup (((seriesVariables working).filter
        (fun w => find_depth w == d)).map (fun w => reduce_hierarchy w))
      let r ← expectSeries (_aggregate working (.vlist vars) none (.str "sum"))
      let (wfin, rs) ← recursiveLevels (appendSeries working r) rest
      .ok (wfin, r :: rs)

/-- Recursive aggregation along the variable tree (`_aggregate_recursive`):
restrict to descendants of `v`, then aggregate level by level from the
maximum depth present down to depth 1, concatenating the per-level results.
`.error .emptyData` models the `ValueError` Python's `max()` raises when no
descendant exists. -/
def _aggregate_recursive (df : Series) (v : String) : Except AggError Series :=
  let d0 := filterDescendants df v
  if (seriesVariables d0).isEmpty then .error .emptyData
  else do
    let (_, rs) ← recursiveLevels d0
      (countdown (maxList ((seriesVariables d0).map find_depth)))
    .ok (concatSeries rs)

/-- The `components` argument of `_aggregate_region`: `False`/`True` or an
explicit list. -/
inductive RComp where
  | ofBool (b : Bool)
  | ofList (l : List String)

/-- The `components is False` test of `_aggregate_region`. -/
def rcompIsFalse : RComp → Bool
  | .ofBool false => true
  | _ => false

/-- Modelled from the spec (`IamDataFrame._all_other_regions` is not part of
the provided sources): all regions other than `region` that contain data for
the variable argument. -/
def _all_other_regions (df : Series) (region : String) (varg : VarArg) :
    List String :=
  (dedup ((df.rows.filter
      (fun p => varArgMatch varg (coord df.names p.1 "variable"))).map
    (fun p => coord df.names p.1 "region"))).filter (fun r => !(r == region))

/-- Modelled from the spec (`df.filter(region=...)` of the container is not
part of the provided sources): restrict to rows whose region is listed. -/
def filterRegionIn (df : Series) (rs : List String) : Series :=
  ⟨df.names, df.rows.filter (fun p => rs.contains (coord df.names p.1 "region"))⟩

/-- Models `pd.Series.add(other, fill_value=0)`: union of the two key sets,
missing entries counted as zero (key order abstracts pandas' sorted union). -/
def addFill (a b : Series) : Series :=
  ⟨a.names,
    (a.rows.map (fun p =>
        (p.1, p.2 + (((b.rows.find? (fun q => q.1 == p.1))).map
          (fun q => q.2)).getD 0)))
      ++ b.rows.filter (fun q => !((a.rows.map (fun p => p.1)).contains q.1))⟩

/-- The subregion list used by `_aggregate_region`: the given list if truthy,
else all other regions containing data for the variable
(`subregions or df._all_other_regions(region, variable)`). -/
def resolveSubregions (df : Series) (region : String) (varg : VarArg)
    (subregions : Option (List String)) : List String :=
  match subregions with
  | none => _all_other_regions df region varg
  | some l => if l.isEmpty then _all_other_regions df region varg else l

/-- Index names not in `ds`, order preserved (models
`pd.core.indexes.frozen.FrozenList.difference`, which keeps order). -/
def namesDifference (names ds : List String) : List String :=
  names.filter (fun n => !(ds.contains n))

/-- Models `pd.Series.droplevel`: remove the listed index levels. -/
def droplevel (s : Series) (ds : List String) : Series :=
  ⟨namesDifference s.names ds,
    s.rows.map (fun p => (proj s.names (namesDifference s.names ds) p.1, p.2))⟩

/-- The key sequence of a series' index (models `pd.Series.index`;
`.equals` on indexes is equality of these sequences). -/
def indexRows (s : Series) : List Row := s.rows.map (fun p => p.1)

/-- The `method not in ["sum", np.sum]` test of `_agg_weight`. -/
def isSumMethod : Method → Bool
  | .str s => s == "sum"
  | .npSum => true
  | .fn _ => false

/-- The weight series after dropping the variable and unit levels
(`weight.droplevel(["variable", "unit"])`). -/
def weightAligned (weight : Series) : Series :=
  droplevel weight ["variable", "unit"]

/-- The elementwise product `data * weight`: each data row multiplied by the
aligned weight entry at its projected key (pandas broadcasts the weight over
the levels it lacks). -/
def dataTimesWeight (data weight : Series) : Series :=
  ⟨data.names, data.rows.map (fun p =>
    (p.1, p.2 * ((((weightAligned weight).rows.find?
        (fun q => q.1 == proj data.names (weightAligned weight).names p.1))).map
      (fun q => q.2)).getD 0))⟩

/-- The numerator `(data * weight).groupby(col1).sum()` of `_agg_weight`,
where `col1` is the data's index names without region. -/
def aggWeightNum (data weight : Series) : Series :=
  groupby (dataTimesWeight data weight)
    (namesDifference data.names ["region"]) sumFn

/-- The denominator `weight.groupby(col2).sum()` of `_agg_weight`, where
`col2` is the data's index names without region, variable and unit. -/
def aggWeightDen (data weight : Series) : Series :=
  groupby (weightAligned weight)
    (namesDifference data.names ["region", "variable", "unit"]) sumFn

/-- The quotient series returned by `_agg_weight`: each numerator row
divided by the denominator entry at its projected key (pandas broadcasts the
denominator over the variable and unit levels). -/
def aggWeightResult (data weight : Series) : Series :=
  ⟨namesDifference data.names ["region"],
    (aggWeightNum data weight).rows.map (fun p =>
      (p.1, p.2 / ((((aggWeightDen data weight).rows.find?
          (fun q => q.1 == proj (namesDifference data.names ["region"])
            (namesDifference data.names ["region", "variable", "unit"])
            p.1))).map
        (fun q => q.2)).getD 0))⟩

/-- Aggregate `data` by regions with weights (`_agg_weight`): only summation
is allowed; after dropping the variable and unit levels the weight index must
equal the data index; the result is `sum_region(data * weight)` divided by
the weight summed over the dimensions excluding region, variable and unit
(the steps are factored into the named definitions above). -/
def _agg_weight (data weight : Series) (method : Method) :
    Except AggError Series :=
  if !(isSumMethod method) then .error .invalidArgument
  else if !(indexRows (droplevel data ["variable", "unit"]) ==
      indexRows (weightAligned weight))
  then .error .inconsistentIndex
  else .ok (aggWeightResult data weight)

/-- The claim's numerator formula `sum_region(data * weight)` at a grouped
key: the sum of the products over the data rows projecting to that key. -/
def sumRegionProd (data weight : Series) (t : Row) : Rat :=
  ((data.rows.filter (fun p =>
      proj data.names (namesDifference data.names ["region"]) p.1 == t)).map
    (fun p => p.2 * ((((weightAligned weight).rows.find?
        (fun q => q.1 == proj data.names (weightAligned weight).names p.1))).map
      (fun q => q.2)).getD 0)).sum

/-- The claim's denominator formula: the weight summed over the group of the
key projected onto the dimensions excluding region, variable and unit. -/
def sumRegionWeight (data weight : Series) (t : Row) : Rat :=
  (((weightAligned weight).rows.filter (fun q =>
      proj (weightAligned weight).names
        (namesDifference data.names ["region", "variable", "unit"]) q.1
      == proj (namesDifference data.names ["region"])
           (namesDifference data.names ["region", "variable", "unit"]) t)).map
    (fun q => q.2)).sum

/-- Internal implementation for aggregating data over subregions
(`_aggregate_region`). Returns `.ok none` for the log-and-return-nothing
path taken when no subregion is found. -/
def _aggregate_region (df : Series) (varg : VarArg) (region : String)
    (subregions : Option (List String)) (components : RComp)
    (method : Method) (weight : Option String) :
    Except AggError (Option Series) :=
  if !(isstr varg) && !(rcompIsFalse components) then .error .invalidArgument
  else if weight.isSome && !(rcompIsFalse components) then
    .error .invalidArgument
  else
    let srs := resolveSubregions df region varg subregions
    if srs.isEmpty then .ok none
    else
      let subregion_df := filterRegionIn df srs
      let rows : Series := ⟨df.names, subregion_df.rows.filter
        (fun p => varArgMatch varg (coord df.names p.1 "variable"))⟩
      let dataE := match weight with
        | none => _group_and_agg rows ["region"] method
        | some w =>
            _agg_weight rows
              ⟨df.names, subregion_df.rows.filter
                (fun p => coord df.names p.1 "variable" == w)⟩
              method
      match dataE with
      | .error e => .error e
      | .ok data =>
          if rcompIsFalse components then .ok (some data)
          else
            let v := match varg with
              | .single v => v
              | .vlist _ => ""
            let region_df := filterRegionIn df [region]
            let comps := match components with
              | .ofBool true =>
                  (variableComponentsAllLevels region_df v).filter
                    (fun c =>
                      !((variableComponentsAllLevels subregion_df v).contains c))
              | .ofList l => l
              | .ofBool false => []
            if comps.isEmpty then .ok (some data)
            else
              let mapping := comps.map (fun c => (c, v))
              let rel : Series := ⟨df.names,
                (region_df.rows.filter (fun p =>
                    comps.contains (coord region_df.names p.1 "variable"))).map
                  (fun p =>
                    (replace_index_values df.names "variable" mapping p.1, p.2))⟩
              match _group_and_agg rel ["region"] .npSum with
              | .error e => .error e
              | .ok g => .ok (some (addFill data g))

/-- Insert into a string list sorted ascending. -/
def insertSorted (x : String) : List String → List String
  | [] => [x]
  | y :: l => if x < y then x :: y :: l else y :: insertSorted x l

/-- Insertion sort on strings (models pandas' sorted pivot column order). -/
def sortStr (l : List String) : List String := l.foldr insertSorted []

/-- All values of one index level (models a column of `df.data`). -/
def colValues (s : Series) (c : String) : List String :=
  s.rows.map (fun p => coord s.names p.1 c)

/-- The default `components` of `_aggregate_time`: all distinct labels of the
`subannual` column of the dataset other than `value`
(`set(df.data.subannual.unique()) - set([value])`). -/
def defaultTimeComponents (df : Series) (value : String) : List String :=
  (dedup (colValues df "subannual")).filter (fun c => !(c == value))

/-- The rows of `df.filter(variable=variable, column=components)` used by
`_aggregate_time`. -/
def timeFiltered (df : Series) (var column : String) (comps : List String) :
    List (Row × Rat) :=
  df.rows.filter (fun p =>
    coord df.names p.1 "variable" == var
      && comps.contains (coord df.names p.1 column))

/-- The row of the pivot table at key `k`: for each subannual label present
in the filtered data (in sorted column order), the value at `(k, label)` if
any. Missing cells (`NaN` in the pivot) are skipped, as pandas reductions do
with `skipna`. Cell lookup relies on the data model's unique-key invariant. -/
def timeCells (df : Series) (var column : String) (comps : List String)
    (k : Row) : List Rat :=
  (sortStr (dedup ((timeFiltered df var column comps).map
      (fun p => coord df.names p.1 column)))).filterMap
    (fun c => (((timeFiltered df var column comps).find?
        (fun p => proj df.names (namesDifference df.names [column]) p.1 == k
          && coord df.names p.1 column == c))).map (fun p => p.2))

/-- Re-attach a pivot key under `column = value` and restore the original
dimension ordering (`pd.concat(..., keys=[value])` plus `reorder_levels`). -/
def timeKey (df : Series) (column value : String) (k : Row) : Row :=
  df.names.map (fun n =>
    if n == column then value else coord (namesDifference df.names [column]) k n)

/-- Internal implementation for aggregating data over subannual time
(`_aggregate_time`): default the components from the `subannual` column,
pivot the filtered rows so the `column` labels become parallel columns,
reduce row-wise with the resolved method, and re-attach under
`column = value` with the original level order restored (pivot row order
abstracts pandas' sorted index order). -/
def _aggregate_time (df : Series) (var column value : String)
    (components : Option (List String)) (method : Method) :
    Except AggError Series :=
  let comps := match components with
    | none => defaultTimeComponents df value
    | some l => l
  match _get_method_func method with
  | .error e => .error e
  | .ok f =>
      .ok ⟨df.names,
        (dedup ((timeFiltered df var column comps).map
            (fun p => proj df.names (namesDifference df.names [column]) p.1))).map
          (fun k => (timeKey df column value k,
            f (timeCells df var column comps k)))⟩

/-- The Time Aggregator as the claim words it: identical to
`_aggregate_time` except that omitted components default to the distinct
labels of the given `column` argument (rather than of the `subannual`
column). Stated for comparison with the source behaviour. -/
def aggregateTimeClaimed (df : Series) (var column value : String)
    (components : Option (List String)) (method : Method) :
    Except AggError Series :=
  let comps := match components with
    | none => (dedup (colValues df column)).filter (fun c => !(c == value))
    | some l => l
  match _get_method_func method with
  | .error e => .error e
  | .ok f =>
      .ok ⟨df.names,
        (dedup ((timeFiltered df var column comps).map
            (fun p => proj df.names (namesDifference df.names [column]) p.1))).map
          (fun k => (timeKey df column value k,
            f (timeCells df var column comps k)))⟩

/-- The total value a series holds at an exact key (the sum of all rows with
that key; under the unique-key invariant, the single value or zero). -/
def valueAt (df : Series) (k : Row) : Rat :=
  ((df.rows.filter (fun p => p.1 == k)).map (fun p => p.2)).sum

/-- The child-to-parent mapping of the single-variable branch of
`_aggregate` with default components. -/
def singleMapping (df : Series) (V : String) : List (String × String) :=
  (_variable_components df V).foldl (fun m c => insertA m c V) []

/-- The relabeled row selection of the single-variable branch of
`_aggregate` with default components. -/
def singleRel (df : Series) (V : String) : Series :=
  ⟨df.names,
    (applyVariableFilter df ((singleMapping df V).map (fun p => p.1))).map
      (fun p =>
        (replace_index_values df.names "variable" (singleMapping df V) p.1,
          p.2))⟩

/-! Concrete example datasets, used to instantiate the claims. -/

/-- The standard index names of the long format (`df._LONG_IDX`). -/
def names6 : List String := ["model", "scenario", "region", "variable", "unit", "year"]

/-- A row of the example datasets: fixed model/scenario/unit, given
region, variable, year and value. -/
def mkRow (reg v y : String) (q : Rat) : Row × Rat :=
  (["m", "s", reg, v, "EJ", y], q)

/-- Example dataset with children `A|B = 1` and `A|C = 2` sharing all other
key values. -/
def exdf : Series := ⟨names6, [mkRow "W" "A|B" "2010" 1, mkRow "W" "A|C" "2010" 2]⟩

/-- Example dataset `A|B|C = 1`, `A|B|D = 2`, `A|E = 3` for recursive
aggregation. -/
def exdf2 : Series :=
  ⟨names6, [mkRow "W" "A|B|C" "2010" 1, mkRow "W" "A|B|D" "2010" 2,
    mkRow "W" "A|E" "2010" 3]⟩

/-- Example dataset with variable `A` in two subregions. -/
def exdfR : Series := ⟨names6, [mkRow "R1" "A" "2010" 1, mkRow "R2" "A" "2010" 2]⟩

/-- Example dataset with a single region only. -/
def exdfW : Series := ⟨names6, [mkRow "W" "A" "2010" 1]⟩

/-- Example weight series aligned with `exdfR` after dropping variable and
unit. -/
def exdfWeight : Series :=
  ⟨names6, [mkRow "R1" "w" "2010" 3, mkRow "R2" "w" "2010" 1]⟩

/-- Index names including a subannual and a further time-slice level. -/
def namesT : List String :=
  ["model", "scenario", "region", "variable", "unit", "year", "subannual", "season"]

/-- Example dataset holding both a `subannual` level (constant label `X`) and
a `season` level with labels `S1`/`S2`. -/
def exdfT : Series :=
  ⟨namesT, [(["m", "s", "W", "V", "EJ", "2010", "X", "S1"], 1),
    (["m", "s", "W", "V", "EJ", "2010", "X", "S2"], 2)]⟩

/-! Basic lemmas about the series operations. -/

theorem mem_dedup {α : Type} [BEq α] [LawfulBEq α] {a : α} {l : List α} :
    a ∈ dedup l ↔ a ∈ l := by
  induction l with
  | nil => simp [dedup]
  | cons b l ih =>
    simp only [dedup, List.mem_cons, List.mem_filter, ih]
    by_cases h : a = b <;> simp [h]

theorem nodup_dedup {α : Type} [BEq α] [LawfulBEq α] (l : List α) :
    (dedup l).Nodup := by
  induction l with
  | nil => simp [dedup]
  | cons b l ih =>
    refine List.Nodup.cons ?_ (List.Nodup.filter _ ih)
    simp [List.mem_filter]

theorem find?_pairs {α β : Type} [BEq α] [LawfulBEq α] (g : α → β)
    (l : List α) (k : α) (hk : k ∈ l) :
    (l.map (fun k' => (k', g k'))).find? (fun q => q.1 == k) = some (k, g k) := by
  induction l with
  | nil => cases hk
  | cons a l ih =>
    simp only [List.map_cons, List.find?_cons]
    by_cases h : a = k
    · subst h; simp
    · have hb : (a == k) = false := by simp [h]
      rcases List.mem_cons.1 hk with h' | h'
      · exact absurd h'.symm h
      · simp only [hb]
        exact ih h'

theorem mem_groupby {s : Series} {cols : List String} {f : List Rat → Rat}
    {t : Row} {v : Rat} :
    (t, v) ∈ (groupby s cols f).rows ↔
      ((∃ p ∈ s.rows, proj s.names cols p.1 = t) ∧
        v = f ((s.rows.filter
          (fun p => proj s.names cols p.1 == t)).map (fun p => p.2))) := by
  simp only [groupby, List.mem_map]
  constructor
  · rintro ⟨k, hk, he⟩
    rw [Prod.mk.injEq] at he
    obtain ⟨rfl, rfl⟩ := he
    rw [mem_dedup, List.mem_map] at hk
    obtain ⟨p, hp, hpr⟩ := hk
    exact ⟨⟨p, hp, hpr⟩, rfl⟩
  · rintro ⟨⟨p, hp, hpr⟩, rfl⟩
    exact ⟨t, mem_dedup.2 (List.mem_map.2 ⟨p, hp, hpr⟩), rfl⟩

theorem find?_groupby (s : Series) (cols : List String) (f : List Rat → Rat)
    (k : Row) (hk : ∃ p ∈ s.rows, proj s.names cols p.1 = k) :
    (groupby s cols f).rows.find? (fun q => q.1 == k) =
      some (k, f ((s.rows.filter
        (fun p => proj s.names cols p.1 == k)).map (fun p => p.2))) := by
  unfold groupby
  exact find?_pairs _ _ _ (mem_dedup.2 (List.mem_map.2 hk))

theorem coord_nil_names (r : Row) (c : String) : coord [] r c = "" := by
  simp [coord]

theorem coord_nil_row (names : List String) (c : String) :
    coord names [] c = "" := by
  simp [coord]

theorem coord_cons (d : String) (ds : List String) (x : String) (xs : Row)
    (c : String) :
    coord (d :: ds) (x :: xs) c = if d = c then x else coord ds xs c := by
  by_cases h : d = c <;> simp [coord, List.find?_cons, h]

theorem proj_cons (names : List String) (c : String) (cols : List String)
    (r : Row) : proj names (c :: cols) r = coord names r c :: proj names cols r :=
  rfl

theorem coord_proj (names : List String) (cols : List String) (r : Row)
    (c : String) (hc : c ∈ cols) :
    coord cols (proj names cols r) c = coord names r c := by
  induction cols with
  | nil => cases hc
  | cons d ds ih =>
    rw [proj_cons, coord_cons]
    by_cases h : d = c
    · simp [h]
    · rcases List.mem_cons.1 hc with h' | h'
      · exact absurd h'.symm h
      · simp [h, ih h']

theorem proj_proj (names : List String) (cols sub : List String) (r : Row)
    (hsub : ∀ c ∈ sub, c ∈ cols) :
    proj cols sub (proj names cols r) = proj names sub r := by
  unfold proj
  exact List.map_congr_left (fun c hc => coord_proj names cols r c (hsub c hc))

theorem proj_self (names : List String) (r : Row) (hnd : names.Nodup)
    (hlen : r.length = names.length) : proj names names r = r := by
  induction names generalizing r with
  | nil => cases r with
    | nil => rfl
    | cons x xs => simp at hlen
  | cons d ds ih =>
    cases r with
    | nil => simp at hlen
    | cons x xs =>
      rw [List.nodup_cons] at hnd
      have htail : proj (d :: ds) ds (x :: xs) = proj ds ds xs := by
        unfold proj
        refine List.map_congr_left (fun c hc => ?_)
        rw [coord_cons, if_neg]
        exact fun h => hnd.1 (h ▸ hc)
      rw [proj_cons, coord_cons, if_pos rfl, htail,
        ih xs hnd.2 (by simpa using hlen)]

theorem mem_keys_insertA {β : Type} (m : List (String × β)) (k : String)
    (v : β) (a : String) :
    (a ∈ (insertA m k v).map (fun p => p.1))
      ↔ (a = k ∨ a ∈ m.map (fun p => p.1)) := by
  induction m with
  | nil => simp [insertA]
  | cons p m ih =>
    by_cases hp : p.1 = k
    · have hb : insertA (p :: m) k v = (k, v) :: m := by
        simp [insertA, hp]
      rw [hb]
      simp only [List.map_cons, List.mem_cons, hp]
      tauto
    · have hb : insertA (p :: m) k v = p :: insertA m k v := by
        simp [insertA, hp]
      rw [hb]
      simp only [List.map_cons, List.mem_cons, ih]
      tauto

theorem values_insertA {β : Type} (m : List (String × β)) (k : String)
    (v : β) (P : β → Prop) (hm : ∀ p ∈ m, P p.2) (hv : P v) :
    ∀ p ∈ insertA m k v, P p.2 := by
  induction m with
  | nil => simpa [insertA]
  | cons q m ih =>
    by_cases hq : q.1 = k
    · have hb : (q.1 == k) = true := by simp [hq]
      simp only [insertA, hb, if_true]
      intro p hp
      rcases List.mem_cons.1 hp with rfl | hp'
      · exact hv
      · exact hm p (List.mem_cons_of_mem _ hp')
    · have hb : (q.1 == k) = false := by simp [hq]
      simp only [insertA, hb, Bool.false_eq_true, if_false]
      intro p hp
      rcases List.mem_cons.1 hp with rfl | hp'
      · exact hm p (List.mem_cons_self _ _)
      · exact ih (fun p' hp' => hm p' (List.mem_cons_of_mem _ hp')) p hp'

theorem lookupA_of_mem_keys {β : Type} (m : List (String × β)) (c : String)
    (hc : c ∈ m.map (fun p => p.1)) :
    ∃ q ∈ m, q.1 = c ∧ lookupA m c = some q.2 := by
  induction m with
  | nil => simp at hc
  | cons p m ih =>
    by_cases hp : p.1 = c
    · refine ⟨p, List.mem_cons_self _ _, hp, ?_⟩
      have hb : (p.1 == c) = true := by simp [hp]
      simp [lookupA, List.find?_cons, hb]
    · have hb : (p.1 == c) = false := by simp [hp]
      have hc' : c ∈ m.map (fun p => p.1) := by
        rcases List.mem_map.1 hc with ⟨q, hq, hqc⟩
        rcases List.mem_cons.1 hq with rfl | hq'
        · exact absurd hqc hp
        · exact List.mem_map.2 ⟨q, hq', hqc⟩
      obtain ⟨q, hq, hqc, hlook⟩ := ih hc'
      refine ⟨q, List.mem_cons_of_mem _ hq, hqc, ?_⟩
      simp only [lookupA, List.find?_cons, hb]
      exact hlook

theorem contains_iff_mem {α : Type} [BEq α] [LawfulBEq α] (l : List α)
    (a : α) : l.contains a = true ↔ a ∈ l := by
  show l.elem a = true ↔ a ∈ l
  exact List.elem_iff

theorem bool_eq_of_iff {a b : Bool} (h : a = true ↔ b = true) : a = b := by
  cases a <;> cases b <;> simp_all

theorem setCoord_cons (d : String) (ds : List String) (x : String) (xs : Row)
    (c y : String) :
    setCoord (d :: ds) (x :: xs) c y =
      (if d = c then y else x) :: setCoord ds xs c y := by
  by_cases h : d = c <;> simp [setCoord, h]

theorem setCoord_length (names : List String) (r : Row) (c y : String) :
    (setCoord names r c y).length = min names.length r.length := by
  simp [setCoord]

theorem coord_setCoord_self (names : List String) (r : Row) (c y : String)
    (hc : c ∈ names) (hlen : names.length ≤ r.length) :
    coord names (setCoord names r c y) c = y := by
  induction names generalizing r with
  | nil => cases hc
  | cons d ds ih =>
    cases r with
    | nil => simp at hlen
    | cons x xs =>
      rw [setCoord_cons, coord_cons]
      by_cases h : d = c
      · simp [h]
      · rcases List.mem_cons.1 hc with h' | h'
        · exact absurd h'.symm h
        · simp [h, ih xs h' (by simpa using hlen)]

theorem setCoord_of_not_mem (names : List String) (r : Row) (c y : String)
    (hc : c ∉ names) (hlen : r.length = names.length) :
    setCoord names r c y = r := by
  induction names generalizing r with
  | nil =>
    cases r with
    | nil => rfl
    | cons x xs => simp at hlen
  | cons d ds ih =>
    cases r with
    | nil => simp at hlen
    | cons x xs =>
      rw [setCoord_cons,
        if_neg (fun h => hc (List.mem_cons.2 (Or.inl h.symm)))]
      rw [ih xs (fun h => hc (List.mem_cons_of_mem _ h)) (by simpa using hlen)]

theorem setCoord_coord_self (names : List String) (r : Row)
    (hnd : names.Nodup) (hlen : r.length = names.length) (c : String) :
    setCoord names r c (coord names r c) = r := by
  induction names generalizing r with
  | nil =>
    cases r with
    | nil => rfl
    | cons x xs => simp at hlen
  | cons d ds ih =>
    cases r with
    | nil => simp at hlen
    | cons x xs =>
      rw [List.nodup_cons] at hnd
      rw [coord_cons, setCoord_cons]
      by_cases h : d = c
      · rw [if_pos h, if_pos h,
          setCoord_of_not_mem ds xs c x (h ▸ hnd.1) (by simpa using hlen)]
      · rw [if_neg h, if_neg h, ih xs hnd.2 (by simpa using hlen)]

theorem setCoord_setCoord (names : List String) (r : Row) (c y z : String) :
    setCoord names (setCoord names r c y) c z = setCoord names r c z := by
  induction names generalizing r with
  | nil => rfl
  | cons d ds ih =>
    cases r with
    | nil => rfl
    | cons x xs =>
      rw [setCoord_cons, setCoord_cons, setCoord_cons, ih]
      by_cases h : d = c <;> simp [h]

theorem sum_map_zero {α : Type} (l : List α) :
    (l.map (fun _ => (0 : Rat))).sum = 0 := by
  induction l <;> simp [*]

theorem sum_map_add {α : Type} (l : List α) (u w : α → Rat) :
    (l.map (fun a => u a + w a)).sum = (l.map u).sum + (l.map w).sum := by
  induction l with
  | nil => simp
  | cons a l ih =>
    simp only [List.map_cons, List.sum_cons, ih]
    ring

theorem sum_ite_unique (cs : List String) (hcs : cs.Nodup) (a : String)
    (x : Rat) (Q : Prop) [Decidable Q] :
    (cs.map (fun c => if a = c ∧ Q then x else 0)).sum =
      if a ∈ cs ∧ Q then x else 0 := by
  induction cs with
  | nil => simp
  | cons c cs ih =>
    rw [List.nodup_cons] at hcs
    rw [List.map_cons, List.sum_cons, ih hcs.2]
    by_cases hac : a = c
    · subst hac
      by_cases hq : Q
      · simp [hq, hcs.1]
      · simp [hq]
    · by_cases hmem : a ∈ cs <;> by_cases hq : Q <;>
        simp [hac, hmem, hq]

/-- Summing the values of the child rows that relabel to a given target key
equals summing, over the (distinct) components, the series' value at the
target key with its variable coordinate replaced by that component. -/
theorem sum_group_eq_sum_components
    (names : List String) (cs : List String) (V : String) (t : Row)
    (hnd : names.Nodup) (hvar : "variable" ∈ names) (hcs : cs.Nodup)
    (htlen : t.length = names.length)
    (htV : coord names t "variable" = V) :
    ∀ rows : List (Row × Rat), (∀ p ∈ rows, p.1.length = names.length) →
    ((rows.filter (fun p => cs.contains (coord names p.1 "variable")
        && (setCoord names p.1 "variable" V == t))).map (fun p => p.2)).sum
      = (cs.map (fun c =>
          ((rows.filter (fun p => p.1 == setCoord names t "variable" c)).map
            (fun p => p.2)).sum)).sum := by
  intro rows
  induction rows with
  | nil =>
    intro _
    simp [sum_map_zero]
  | cons p rows ih =>
    intro hlen
    have hplen : p.1.length = names.length := hlen p (List.mem_cons_self _ _)
    have htail := ih (fun q hq => hlen q (List.mem_cons_of_mem _ hq))
    have hiff : ∀ c, p.1 = setCoord names t "variable" c ↔
        (coord names p.1 "variable" = c ∧
          setCoord names p.1 "variable" V = t) := by
      intro c
      constructor
      · intro he
        have h1 : coord names p.1 "variable" = c := by
          rw [he]
          exact coord_setCoord_self names t "variable" c hvar (le_of_eq htlen.symm)
        refine ⟨h1, ?_⟩
        rw [he, setCoord_setCoord, ← htV]
        exact setCoord_coord_self names t hnd htlen "variable"
      · rintro ⟨h1, h2⟩
        rw [← h2, setCoord_setCoord, ← h1]
        exact (setCoord_coord_self names p.1 hnd hplen "variable").symm
    have hstep : ∀ c,
        ((List.filter (fun q => q.1 == setCoord names t "variable" c)
            (p :: rows)).map (fun q => q.2)).sum
          = (if p.1 = setCoord names t "variable" c then p.2 else 0)
            + ((List.filter (fun q => q.1 == setCoord names t "variable" c)
                rows).map (fun q => q.2)).sum := by
      intro c
      rw [List.filter_cons]
      by_cases h : p.1 = setCoord names t "variable" c
      · simp [h]
      · simp [h]
    have hbool : (cs.contains (coord names p.1 "variable")
        && (setCoord names p.1 "variable" V == t)) = true ↔
        (coord names p.1 "variable" ∈ cs ∧
          setCoord names p.1 "variable" V = t) := by
      rw [Bool.and_eq_true, contains_iff_mem, beq_iff_eq]
    have hRHS : (cs.map (fun c =>
        ((List.filter (fun q => q.1 == setCoord names t "variable" c)
          (p :: rows)).map (fun q => q.2)).sum)).sum
        = (if (coord names p.1 "variable" ∈ cs ∧
              setCoord names p.1 "variable" V = t) then p.2 else 0)
          + (cs.map (fun c =>
            ((List.filter (fun q => q.1 == setCoord names t "variable" c)
              rows).map (fun q => q.2)).sum)).sum := by
      rw [List.map_congr_left (fun c _ => hstep c), sum_map_add]
      congr 1
      rw [List.map_congr_left (fun c (_ : c ∈ cs) =>
        if_congr (hiff c) rfl rfl)]
      exact sum_ite_unique cs hcs (coord names p.1 "variable") p.2 _
    rw [List.filter_cons, hRHS]
    by_cases hB : (coord names p.1 "variable" ∈ cs ∧
        setCoord names p.1 "variable" V = t)
    · rw [if_pos (hbool.2 hB), if_pos hB, List.map_cons, List.sum_cons, htail]
    · rw [if_neg (fun hh => hB (hbool.1 hh)), if_neg hB, htail, zero_add]

theorem keys_singleFold (cs : List String) (V : String) :
    ∀ (m0 : List (String × String)) (x : String),
      (x ∈ (cs.foldl (fun m c => insertA m c V) m0).map (fun p => p.1))
        ↔ (x ∈ m0.map (fun p => p.1) ∨ x ∈ cs) := by
  induction cs with
  | nil => intro m0 x; simp
  | cons c cs ih =>
    intro m0 x
    rw [List.foldl_cons, ih, mem_keys_insertA]
    simp only [List.mem_cons]
    tauto

theorem values_singleFold (cs : List String) (V : String) :
    ∀ m0 : List (String × String), (∀ p ∈ m0, p.2 = V) →
      ∀ p ∈ cs.foldl (fun m c => insertA m c V) m0, p.2 = V := by
  induction cs with
  | nil => intro m0 h; exact h
  | cons c cs ih =>
    intro m0 h
    exact ih _ (values_insertA m0 c V (fun b => b = V) h rfl)

theorem lookup_singleFold (cs : List String) (V : String) (c : String)
    (hc : c ∈ cs) :
    lookupA (cs.foldl (fun m x => insertA m x V) []) c = some V := by
  have hkey : c ∈ (cs.foldl (fun m x => insertA m x V) []).map (fun p => p.1) :=
    (keys_singleFold cs V [] c).2 (Or.inr hc)
  obtain ⟨q, hq, _, hlook⟩ := lookupA_of_mem_keys _ c hkey
  rw [hlook, values_singleFold cs V [] (by simp) q hq]

theorem replace_eq_setCoord (names : List String) (dim : String)
    (mapping : List (String × String)) (r : Row) (y : String)
    (hnd : names.Nodup)
    (h : lookupA mapping (coord names r dim) = some y) :
    replace_index_values names dim mapping r = setCoord names r dim y := by
  induction names generalizing r with
  | nil => rfl
  | cons d ds ih =>
    cases r with
    | nil => rfl
    | cons x xs =>
      rw [List.nodup_cons] at hnd
      by_cases hd : d = dim
      · rw [coord_cons, if_pos hd] at h
        have hdim : dim ∉ ds := hd ▸ hnd.1
        simp only [replace_index_values, setCoord, List.zip_cons_cons,
          List.map_cons]
        congr 1
        · simp [hd, h]
        · refine List.map_congr_left (fun p hp => ?_)
          have hne : p.1 ≠ dim := fun he => hdim (he ▸ (List.of_mem_zip hp).1)
          simp [hne]
      · rw [coord_cons, if_neg hd] at h
        simp only [replace_index_values, setCoord, List.zip_cons_cons,
          List.map_cons]
        congr 1
        · simp [hd]
        · exact ih xs hnd.2 h

/-! Claim theorems. -/

/-- C8: a string in the known-name set resolves to its reduction function,
a string outside it (such as "bogus") raises `UnknownMethodError`, and a
non-string passes through unchanged. -/
theorem method_resolver_spec :
    (∀ s f, lookupA KNOWN_FUNCS s = some f →
      _get_method_func (.str s) = .ok f) ∧
    (∀ s, lookupA KNOWN_FUNCS s = none →
      _get_method_func (.str s) = .error .unknownMethod) ∧
    (_get_method_func (.str "bogus") = .error .unknownMethod) ∧
    (∀ f, _get_method_func (.fn f) = .ok f) ∧
    (_get_method_func .npSum = .ok sumFn) := by
  refine ⟨?_, ?_, ?_, fun f => rfl, rfl⟩
  · intro s f h
    simp [_get_method_func, h]
  · intro s h
    simp [_get_method_func, h]
  · rfl

/-- C8 witness: the known name "sum" resolves to the sum reduction, the
unknown name "bogus" fails. -/
theorem method_resolver_spec_witness :
    _get_method_func (.str "sum") = .ok sumFn ∧
    _get_method_func (.str "bogus") = .error .unknownMethod :=
  ⟨method_resolver_spec.1 "sum" sumFn rfl, method_resolver_spec.2.2.1⟩

/-- C5: the variable aggregator rejects a list of variables combined with an
explicit components argument, and the region aggregator rejects a list of
variables with components not False as well as a weight with components not
False — always with `InvalidArgumentError`, before any aggregation. -/
theorem conflicting_arguments_invalid :
    (∀ df vs comps method, comps ≠ none →
      _aggregate df (.vlist vs) comps method = .error .invalidArgument) ∧
    (∀ df vs region srs comps method w, rcompIsFalse comps = false →
      _aggregate_region df (.vlist vs) region srs comps method w =
        .error .invalidArgument) ∧
    (∀ df varg region srs comps method w, rcompIsFalse comps = false →
      _aggregate_region df varg region srs comps method (some w) =
        .error .invalidArgument) := by
  refine ⟨?_, ?_, ?_⟩
  · intro df vs comps method h
    have hs : comps.isSome = true := by
      cases comps
      · exact absurd rfl h
      · rfl
    simp [_aggregate, islistable, hs]
  · intro df vs region srs comps method w h
    simp [_aggregate_region, isstr, h]
  · intro df varg region srs comps method w h
    cases varg <;> simp [_aggregate_region, isstr, h]

/-- C5 witness: concrete conflicting calls fail with `InvalidArgumentError`. -/
theorem conflicting_arguments_invalid_witness :
    _aggregate exdf (.vlist ["A"]) (some ["A|B"]) .npSum =
      .error .invalidArgument ∧
    _aggregate_region exdf (.vlist ["A"]) "World" none (.ofList ["A|B"])
      (.str "sum") none = .error .invalidArgument ∧
    _aggregate_region exdf (.single "A") "World" none (.ofBool true)
      (.str "sum") (some "w") = .error .invalidArgument :=
  ⟨conflicting_arguments_invalid.1 exdf ["A"] (some ["A|B"]) .npSum
      (by decide),
    conflicting_arguments_invalid.2.1 exdf ["A"] "World" none
      (.ofList ["A|B"]) (.str "sum") none rfl,
    conflicting_arguments_invalid.2.2 exdf (.single "A") "World" none
      (.ofBool true) (.str "sum") "w" rfl⟩

/-- C6: the weighted region aggregator rejects any method other than sum
(such as "mean") with `InvalidArgumentError`, and with a sum method rejects a
weight whose index after dropping variable and unit differs from the data's
with `InconsistentIndexError`. -/
theorem agg_weight_errors :
    (∀ data weight, _agg_weight data weight (.str "mean") =
      .error .invalidArgument) ∧
    (∀ data weight method, isSumMethod method = false →
      _agg_weight data weight method = .error .invalidArgument) ∧
    (∀ data weight method, isSumMethod method = true →
      indexRows (droplevel data ["variable", "unit"]) ≠
        indexRows (droplevel weight ["variable", "unit"]) →
      _agg_weight data weight method = .error .inconsistentIndex) := by
  refine ⟨fun data weight => rfl, ?_, ?_⟩
  · intro data weight method h
    simp [_agg_weight, h]
  · intro data weight method h1 h2
    have hb : (indexRows (droplevel data ["variable", "unit"]) ==
        indexRows (droplevel weight ["variable", "unit"])) = false := by
      simpa using h2
    simp [_agg_weight, weightAligned, h1, hb]

/-- C6 witness: mean fails on concrete data; a concrete mismatched weight
fails the index check. -/
theorem agg_weight_errors_witness :
    _agg_weight exdfR exdfWeight (.str "mean") = .error .invalidArgument ∧
    _agg_weight exdfR ⟨names6, [mkRow "R1" "w" "2010" 3]⟩ (.str "sum") =
      .error .inconsistentIndex :=
  ⟨agg_weight_errors.1 exdfR exdfWeight,
    agg_weight_errors.2.2 exdfR ⟨names6, [mkRow "R1" "w" "2010" 3]⟩
      (.str "sum") rfl (by decide)⟩

/-- C7: a single variable without components aggregates to nothing (no
error), and a region aggregation that finds no subregions returns nothing
(no error). -/
theorem no_components_no_subregions_return_nothing :
    (∀ df v method, _variable_components df v = [] →
      _aggregate df (.single v) none method = .ok none) ∧
    (∀ df v region method subregions,
      resolveSubregions df region (.single v) subregions = [] →
      _aggregate_region df (.single v) region subregions (.ofBool false)
        method none = .ok none) := by
  refine ⟨?_, ?_⟩
  · intro df v method h
    simp [_aggregate, islistable, h]
  · intro df v region method subregions h
    simp [_aggregate_region, isstr, rcompIsFalse, h]

/-- C7 witness: a leaf variable and a variable-region pair without
subregions both return nothing on concrete data. -/
theorem no_components_no_subregions_return_nothing_witness :
    _aggregate exdf (.single "Z") none .npSum = .ok none ∧
    _aggregate_region exdfW (.single "A") "W" none (.ofBool false)
      (.str "sum") none = .ok none :=
  ⟨no_components_no_subregions_return_nothing.1 exdf "Z" .npSum (by decide),
    no_components_no_subregions_return_nothing.2 exdfW "A" "W" (.str "sum")
      none (by decide)⟩

/-- C9: an explicitly empty subregion list behaves exactly like an omitted
one — the default (all other regions with data for the variable) applies. -/
theorem region_empty_subregions_default :
    ∀ df varg region comps method w,
      _aggregate_region df varg region (some []) comps method w =
        _aggregate_region df varg region none comps method w := by
  intro df varg region comps method w
  rfl

/-- The list branch of `_aggregate` never raises on variables without
components: it builds the same mapping as if they were absent. -/
theorem buildMapping_filter (df : Series) (vs : List String) :
    buildMapping df vs =
      buildMapping df (vs.filter (fun x => !((_variable_components df x).isEmpty))) := by
  unfold buildMapping
  suffices h : ∀ m0 : List (String × String),
      vs.foldl (fun m v =>
        (_variable_components df v).foldl (fun m' c => insertA m' c v) m) m0 =
      (vs.filter (fun x => !((_variable_components df x).isEmpty))).foldl
        (fun m v =>
          (_variable_components df v).foldl (fun m' c => insertA m' c v) m) m0
    from h []
  induction vs with
  | nil => intro m0; rfl
  | cons v vs ih =>
    intro m0
    by_cases hv : (_variable_components df v).isEmpty
    · have hn : _variable_components df v = [] := by
        simpa using hv
      simp only [List.foldl_cons, List.filter_cons, hv, Bool.not_true,
        Bool.false_eq_true, if_false, hn, List.foldl_nil]
      exact ih m0
    · have hb : (!(_variable_components df v).isEmpty) = true := by
        simp [hv]
      simp only [List.foldl_cons, List.filter_cons, hb, if_true]
      exact ih _

/-- The mapping of the list branch is empty when every listed variable lacks
components. -/
theorem buildMapping_nil (df : Series) (vs : List String)
    (h : ∀ x ∈ vs, _variable_components df x = []) :
    buildMapping df vs = [] := by
  have := buildMapping_filter df vs
  rw [List.filter_eq_nil_iff.2 (fun x hx => by simp [h x hx])] at this
  simpa [buildMapping] using this

/-- Aggregating with an empty mapping yields an empty series over the
original index names (the empty row selection). -/
theorem aggregateMapped_nil (df : Series) (method : Method)
    (f : List Rat → Rat) (hm : _get_method_func method = .ok f) :
    aggregateMapped df [] method = .ok ⟨df.names, []⟩ := by
  have hrows : applyVariableFilter df
      (([] : List (String × String)).map (fun p => p.1)) = [] :=
    List.filter_eq_nil_iff.2 (fun a _ => by simp)
  unfold aggregateMapped
  rw [hrows]
  unfold _group_and_agg
  rw [hm]
  have hcols : df.names.filter (fun c => !(List.contains ([] : List String) c))
      = df.names :=
    List.filter_eq_self.2 (fun a _ => rfl)
  simp [groupby, dedup, hcols]

/-- C10: for a list of variables, variables without components are skipped
(the result equals aggregating only those with components); when all of them
lack components the aggregation still returns an (empty) series rather than
nothing; the list branch never takes the return-nothing path. -/
theorem aggregate_vlist_skips_empty :
    (∀ df vs method,
      _aggregate df (.vlist vs) none method =
        _aggregate df
          (.vlist (vs.filter (fun x => !((_variable_components df x).isEmpty))))
          none method) ∧
    (∀ df vs, (∀ x ∈ vs, _variable_components df x = []) →
      _aggregate df (.vlist vs) none .npSum = .ok (some ⟨df.names, []⟩)) ∧
    (∀ df vs, ∃ s, _aggregate df (.vlist vs) none .npSum = .ok (some s)) := by
  have hunfold : ∀ df vs method,
      _aggregate df (.vlist vs) none method =
        (aggregateMapped df (buildMapping df vs) method).map some :=
    fun df vs method => rfl
  refine ⟨?_, ?_, ?_⟩
  · intro df vs method
    rw [hunfold, hunfold, ← buildMapping_filter]
  · intro df vs h
    rw [hunfold, buildMapping_nil df vs h,
      aggregateMapped_nil df .npSum sumFn rfl]
    rfl
  · intro df vs
    exact ⟨_, rfl⟩

/-- C10 witness: a list consisting only of a component-less variable still
yields an empty series instead of nothing. -/
theorem aggregate_vlist_skips_empty_witness :
    _aggregate exdf (.vlist ["Z"]) none .npSum =
      .ok (some ⟨exdf.names, []⟩) :=
  aggregate_vlist_skips_empty.2.1 exdf ["Z"] (by decide)

/-- The list branch of `_aggregate` with default components and method sum
always produces a series. -/
theorem aggregate_vlist_sum_ok (df : Series) (vs : List String) :
    ∃ s, _aggregate df (.vlist vs) none (.str "sum") = .ok (some s) :=
  ⟨_, rfl⟩

/-- The per-level loop of the recursive aggregator never fails. -/
theorem recursiveLevels_ok (ds : List Nat) :
    ∀ w, ∃ p, recursiveLevels w ds = .ok p := by
  induction ds with
  | nil => intro w; exact ⟨(w, []), rfl⟩
  | cons d rest ih =>
    intro w
    obtain ⟨s, hs⟩ := aggregate_vlist_sum_ok w
      (dedup (((seriesVariables w).filter
        (fun x => find_depth x == d)).map (fun x => reduce_hierarchy x)))
    obtain ⟨⟨wfin, rs⟩, hrec⟩ := ih (appendSeries w s)
    refine ⟨(wfin, s :: rs), ?_⟩
    simp [recursiveLevels, hs, expectSeries, hrec, Bind.bind, Except.bind]

/-- Length of the countdown list. -/
theorem countdown_length (n : Nat) : (countdown n).length = n := by
  induction n with
  | zero => rfl
  | succ n ih => simp [countdown, ih]

/-- Along the per-level loop, the working dataset only grows and every
per-level result is contained in the final working dataset; one result is
produced per listed level. -/
theorem recursiveLevels_mono (ds : List Nat) :
    ∀ w wfin rs, recursiveLevels w ds = .ok (wfin, rs) →
      (∀ q ∈ w.rows, q ∈ wfin.rows) ∧
      (∀ r ∈ rs, ∀ q ∈ r.rows, q ∈ wfin.rows) ∧
      rs.length = ds.length := by
  induction ds with
  | nil =>
    intro w wfin rs h
    simp only [recursiveLevels] at h
    injection h with h
    injection h with h1 h2
    subst h1; subst h2
    exact ⟨fun q hq => hq, by simp, rfl⟩
  | cons d rest ih =>
    intro w wfin rs h
    obtain ⟨s, hs⟩ := aggregate_vlist_sum_ok w
      (dedup (((seriesVariables w).filter
        (fun x => find_depth x == d)).map (fun x => reduce_hierarchy x)))
    obtain ⟨⟨w', rs'⟩, hrec⟩ := recursiveLevels_ok rest (appendSeries w s)
    rw [show recursiveLevels w (d :: rest) = .ok (w', s :: rs') by
      simp [recursiveLevels, hs, expectSeries, hrec, Bind.bind, Except.bind]] at h
    injection h with h
    injection h with h1 h2
    subst h1; subst h2
    obtain ⟨hmono, hlev, hlen⟩ := ih _ _ _ hrec
    refine ⟨?_, ?_, by simp [hlen]⟩
    · intro q hq
      exact hmono q (by simp [appendSeries, hq])
    · intro r hr q hq
      rcases List.mem_cons.1 hr with rfl | hr'
      · exact hmono q (by simp [appendSeries, hq])
      · exact hlev r hr' q hq

/-- C2: recursive aggregation restricts to the descendants of the root,
iterates depth levels from the maximum depth present down to 1, aggregates
the immediate-parent names of each level against the working dataset,
appends each level's result before the next (shallower) level, and returns
the per-level results concatenated deepest first; on `A|B|C = 1`,
`A|B|D = 2`, `A|E = 3` it yields, in order, `A|B = 3` then `A = 6`. -/
theorem aggregate_recursive_bottom_up :
    (_aggregate_recursive exdf2 "A" =
      .ok ⟨names6, [(["m", "s", "W", "A|B", "EJ", "2010"], 3),
        (["m", "s", "W", "A", "EJ", "2010"], 6)]⟩) ∧
    (∀ df v, (seriesVariables (filterDescendants df v)).isEmpty = false →
      ∃ wfin rs,
        recursiveLevels (filterDescendants df v)
          (countdown (maxList
            ((seriesVariables (filterDescendants df v)).map find_depth))) =
          .ok (wfin, rs) ∧
        _aggregate_recursive df v = .ok (concatSeries rs) ∧
        rs.length =
          maxList ((seriesVariables (filterDescendants df v)).map find_depth) ∧
        (∀ r ∈ rs, ∀ q ∈ r.rows, q ∈ wfin.rows)) := by
  constructor
  · with_unfolding_all decide
  · intro df v h
    obtain ⟨⟨wfin, rs⟩, hrec⟩ := recursiveLevels_ok
      (countdown (maxList
        ((seriesVariables (filterDescendants df v)).map find_depth)))
      (filterDescendants df v)
    obtain ⟨_, hlev, hlen⟩ := recursiveLevels_mono _ _ _ _ hrec
    refine ⟨wfin, rs, hrec, ?_, ?_, hlev⟩
    · simp [_aggregate_recursive, h, hrec, Bind.bind, Except.bind]
    · rw [hlen, countdown_length]

/-- C2 witness: the general structure instantiated on the concrete
three-row dataset. -/
theorem aggregate_recursive_bottom_up_witness :
    ∃ wfin rs,
      recursiveLevels (filterDescendants exdf2 "A")
        (countdown (maxList
          ((seriesVariables (filterDescendants exdf2 "A")).map find_depth))) =
        .ok (wfin, rs) ∧
      _aggregate_recursive exdf2 "A" = .ok (concatSeries rs) ∧
      rs.length =
        maxList ((seriesVariables (filterDescendants exdf2 "A")).map find_depth) ∧
      (∀ r ∈ rs, ∀ q ∈ r.rows, q ∈ wfin.rows) :=
  aggregate_recursive_bottom_up.2 exdf2 "A" (by decide)

/-- Projecting a row built by mapping over the index names recovers the
mapped value at each index name. -/
theorem coord_map_self (names : List String) (g : String → String)
    (c : String) (hc : c ∈ names) :
    coord names (names.map g) c = g c := by
  induction names with
  | nil => cases hc
  | cons d ds ih =>
    rw [List.map_cons, coord_cons]
    by_cases h : d = c
    · subst h; simp
    · rcases List.mem_cons.1 hc with h' | h'
      · exact absurd h'.symm h
      · simp [h, ih h']

/-- Every output row of the time aggregator carries the target label at the
pivot column. -/
theorem coord_timeKey (df : Series) (column value : String) (k : Row)
    (hcol : column ∈ df.names) :
    coord df.names (timeKey df column value k) column = value := by
  unfold timeKey
  rw [coord_map_self df.names _ column hcol]
  simp

/-- C4 counterexample: on a dataset carrying both a `subannual` and a
`season` level, calling the time aggregator with `column = "season"` and
omitted components consults the `subannual` labels — not the labels of the
given column — so the result differs from the claim's reading. -/
theorem aggregate_time_default_counterexample :
    _aggregate_time exdfT "V" "season" "year" none .npSum =
      .ok ⟨namesT, []⟩ ∧
    aggregateTimeClaimed exdfT "V" "season" "year" none .npSum =
      .ok ⟨namesT, [(["m", "s", "W", "V", "EJ", "2010", "X", "year"], 3)]⟩ ∧
    _aggregate_time exdfT "V" "season" "year" none .npSum ≠
      aggregateTimeClaimed exdfT "V" "season" "year" none .npSum := by
  refine ⟨?_, ?_, ?_⟩
  · with_unfolding_all decide
  · with_unfolding_all decide
  · with_unfolding_all decide

/-- C4 (amended): with components omitted they default to the distinct
labels of the dataset's `subannual` column excluding the target `value`
(the `column` argument is not consulted for this default; the two coincide
for `column = "subannual"`); the result pivots the filtered rows, reduces
row-wise across the component columns, and re-attaches each row under
`column = value` with the original dimension ordering restored. -/
theorem aggregate_time_default_subannual (df : Series)
    (var col val : String) (m : Method) (f : List Rat → Rat)
    (hm : _get_method_func m = .ok f) (hcol : col ∈ df.names) :
    (_aggregate_time df var col val none m =
      _aggregate_time df var col val (some (defaultTimeComponents df val)) m) ∧
    (∀ comps, aggregateTimeClaimed df var "subannual" val comps m =
      _aggregate_time df var "subannual" val comps m) ∧
    (∀ s, _aggregate_time df var col val none m = .ok s →
      s.names = df.names ∧
      (∀ t v, (t, v) ∈ s.rows ↔ ∃ k,
        k ∈ dedup ((timeFiltered df var col (defaultTimeComponents df val)).map
          (fun p => proj df.names (namesDifference df.names [col]) p.1)) ∧
        t = timeKey df col val k ∧
        v = f (timeCells df var col (defaultTimeComponents df val) k)) ∧
      (∀ t v, (t, v) ∈ s.rows → coord df.names t col = val)) := by
  refine ⟨rfl, fun comps => rfl, ?_⟩
  intro s hs
  rw [show _aggregate_time df var col val none m =
      .ok ⟨df.names,
        (dedup ((timeFiltered df var col (defaultTimeComponents df val)).map
          (fun p => proj df.names (namesDifference df.names [col]) p.1))).map
          (fun k => (timeKey df col val k,
            f (timeCells df var col (defaultTimeComponents df val) k)))⟩ by
    simp [_aggregate_time, hm]] at hs
  injection hs with hs
  subst hs
  refine ⟨rfl, ?_, ?_⟩
  · intro t v
    simp only [List.mem_map]
    constructor
    · rintro ⟨k, hk, he⟩
      rw [Prod.mk.injEq] at he
      exact ⟨k, hk, he.1.symm, he.2.symm⟩
    · rintro ⟨k, hk, rfl, rfl⟩
      exact ⟨k, hk, rfl⟩
  · intro t v ht
    rcases List.mem_map.1 ht with ⟨k, _, he⟩
    rw [Prod.mk.injEq] at he
    rw [← he.1]
    exact coord_timeKey df col val k hcol

/-- C4 witness: the amended default rule instantiated on the concrete
two-season dataset with `column = "subannual"`. -/
theorem aggregate_time_default_subannual_witness :
    _aggregate_time exdfT "V" "subannual" "year" none .npSum =
      _aggregate_time exdfT "V" "subannual" "year"
        (some (defaultTimeComponents exdfT "year")) .npSum :=
  (aggregate_time_default_subannual exdfT "V" "subannual" "year" .npSum
    sumFn rfl (by decide)).1

/-- With default components present, the single-variable branch of
`_aggregate` with method `np.sum` reduces to grouping the relabeled row
selection by the full index. -/
theorem aggregate_single_eq (df : Series) (V : String)
    (hcs : (_variable_components df V).isEmpty = false) :
    _aggregate df (.single V) none .npSum =
      .ok (some (groupby (singleRel df V) df.names sumFn)) := by
  have h1 : _aggregate df (.single V) none .npSum =
      (aggregateMapped df (singleMapping df V) .npSum).map some := by
    simp [_aggregate, islistable, hcs, singleMapping]
  rw [h1]
  show (Except.ok (groupby (singleRel df V)
    (df.names.filter (fun c => !(List.contains ([] : List String) c)))
    sumFn)).map some = _
  have hcols : List.filter (fun c => !(List.contains ([] : List String) c))
      df.names = df.names :=
    List.filter_eq_self.2 (fun a _ => rfl)
  rw [hcols]
  rfl

/-- The relabeled row selection: the child rows with the variable coordinate
rewritten to the parent. -/
theorem singleRel_rows (df : Series) (V : String) (hwf : WF df) :
    (singleRel df V).rows = (df.rows.filter
      (fun p => (_variable_components df V).contains
        (coord df.names p.1 "variable"))).map
      (fun p => (setCoord df.names p.1 "variable" V, p.2)) := by
  have hcont : ∀ x, ((singleMapping df V).map (fun p => p.1)).contains x
      = (_variable_components df V).contains x := by
    intro x
    refine bool_eq_of_iff ?_
    rw [contains_iff_mem, contains_iff_mem]
    rw [show singleMapping df V =
      (_variable_components df V).foldl (fun m c => insertA m c V) [] from rfl]
    rw [keys_singleFold]
    simp
  have hfil : applyVariableFilter df ((singleMapping df V).map (fun p => p.1))
      = df.rows.filter (fun p =>
          (_variable_components df V).contains (coord df.names p.1 "variable")) := by
    unfold applyVariableFilter
    exact List.filter_congr (fun p _ => hcont _)
  show (applyVariableFilter df ((singleMapping df V).map (fun p => p.1))).map _ = _
  rw [hfil]
  refine List.map_congr_left (fun p hp => ?_)
  have hc : coord df.names p.1 "variable" ∈ _variable_components df V :=
    (contains_iff_mem _ _).1 (List.mem_filter.1 hp).2
  rw [replace_eq_setCoord df.names "variable" (singleMapping df V) p.1 V hwf.1
    (lookup_singleFold (_variable_components df V) V _ hc)]

/-- Rows of the relabeled selection keep the full key length. -/
theorem singleRel_len (df : Series) (V : String) (hwf : WF df) :
    ∀ q ∈ (singleRel df V).rows, q.1.length = df.names.length := by
  intro q hq
  rw [singleRel_rows df V hwf] at hq
  rcases List.mem_map.1 hq with ⟨p, hp, rfl⟩
  rw [setCoord_length, hwf.2 p (List.mem_filter.1 hp).1]
  simp

/-- C1: with default method sum, aggregating a single variable `V` whose
components exist returns exactly the rows obtained by relabeling a child row
to `V`, each carrying the sum, over the components, of the dataset's value at
that key with the variable coordinate replaced by the component — the
reduction of the children's values at that key. -/
theorem aggregate_single_sums_components (df : Series) (V : String)
    (hwf : WF df) (hvar : "variable" ∈ df.names)
    (hcs : (_variable_components df V).isEmpty = false) :
    ∃ s, _aggregate df (.single V) none .npSum = .ok (some s) ∧
      s.names = df.names ∧
      ∀ t v, (t, v) ∈ s.rows ↔
        ((∃ p ∈ df.rows,
            coord df.names p.1 "variable" ∈ _variable_components df V ∧
            setCoord df.names p.1 "variable" V = t) ∧
          v = ((_variable_components df V).map
            (fun c => valueAt df (setCoord df.names t "variable" c))).sum) := by
  have hcsnd : (_variable_components df V).Nodup := by
    have hsv : (seriesVariables df).Nodup := by
      show (dedup (df.rows.map (fun p => coord df.names p.1 "variable"))).Nodup
      exact nodup_dedup _
    exact List.Nodup.filter _ hsv
  refine ⟨groupby (singleRel df V) df.names sumFn,
    aggregate_single_eq df V hcs, rfl, ?_⟩
  intro t v
  rw [mem_groupby]
  have hA : (∃ p ∈ (singleRel df V).rows,
      proj (singleRel df V).names df.names p.1 = t) ↔
      (∃ p ∈ df.rows,
        coord df.names p.1 "variable" ∈ _variable_components df V ∧
        setCoord df.names p.1 "variable" V = t) := by
    constructor
    · rintro ⟨q, hq, hproj⟩
      have hql := singleRel_len df V hwf q hq
      rw [show (singleRel df V).names = df.names from rfl,
        proj_self df.names q.1 hwf.1 hql] at hproj
      rw [singleRel_rows df V hwf] at hq
      rcases List.mem_map.1 hq with ⟨p, hp, he⟩
      rw [List.mem_filter] at hp
      refine ⟨p, hp.1, (contains_iff_mem _ _).1 hp.2, ?_⟩
      have hfst : setCoord df.names p.1 "variable" V = q.1 :=
        congrArg Prod.fst he
      rw [hfst, hproj]
    · rintro ⟨p, hp, hpc, hpt⟩
      refine ⟨(setCoord df.names p.1 "variable" V, p.2), ?_, ?_⟩
      · rw [singleRel_rows df V hwf]
        exact List.mem_map.2
          ⟨p, List.mem_filter.2 ⟨hp, (contains_iff_mem _ _).2 hpc⟩, rfl⟩
      · show proj df.names df.names (setCoord df.names p.1 "variable" V) = t
        rw [proj_self df.names _ hwf.1
          (by rw [setCoord_length, hwf.2 p hp]; simp)]
        exact hpt
  have hGroup : (∃ p ∈ df.rows,
        coord df.names p.1 "variable" ∈ _variable_components df V ∧
        setCoord df.names p.1 "variable" V = t) →
      (((singleRel df V).rows.filter
        (fun p => proj (singleRel df V).names df.names p.1 == t)).map
          (fun p => p.2)).sum
      = ((_variable_components df V).map
          (fun c => valueAt df (setCoord df.names t "variable" c))).sum := by
    rintro ⟨p0, hp0, hc0, ht0⟩
    have htlen : t.length = df.names.length := by
      rw [← ht0, setCoord_length, hwf.2 p0 hp0]
      simp
    have htV : coord df.names t "variable" = V := by
      rw [← ht0]
      exact coord_setCoord_self df.names p0.1 "variable" V hvar
        (le_of_eq (hwf.2 p0 hp0).symm)
    have hfc : (singleRel df V).rows.filter
        (fun p => proj (singleRel df V).names df.names p.1 == t)
        = (singleRel df V).rows.filter (fun p => p.1 == t) :=
      List.filter_congr (fun q hq => by
        rw [show (singleRel df V).names = df.names from rfl,
          proj_self df.names q.1 hwf.1 (singleRel_len df V hwf q hq)])
    rw [hfc, singleRel_rows df V hwf, List.filter_map, List.map_map,
      List.filter_filter]
    dsimp only [Function.comp]
    rw [List.filter_congr (fun q (_ : q ∈ df.rows) =>
      Bool.and_comm (setCoord df.names q.1 "variable" V == t)
        ((_variable_components df V).contains (coord df.names q.1 "variable")))]
    exact sum_group_eq_sum_components df.names (_variable_components df V) V t
      hwf.1 hvar hcsnd htlen htV df.rows hwf.2
  constructor
  · rintro ⟨hex, hval⟩
    have hex' := hA.1 hex
    refine ⟨hex', ?_⟩
    rw [hval]
    exact hGroup hex'
  · rintro ⟨hex', hval⟩
    refine ⟨hA.2 hex', ?_⟩
    rw [hval]
    exact (hGroup hex').symm

/-- Removing more index names removes no fewer: monotonicity of the
order-preserving name difference. -/
theorem namesDifference_mono (names ds1 ds2 : List String)
    (hsub : ∀ x ∈ ds1, x ∈ ds2) :
    ∀ c ∈ namesDifference names ds2, c ∈ namesDifference names ds1 := by
  intro c hc
  simp only [namesDifference, List.mem_filter] at hc ⊢
  refine ⟨hc.1, ?_⟩
  cases h1 : ds1.contains c
  · rfl
  · exfalso
    have hc1 : c ∈ ds2 := hsub c ((contains_iff_mem _ c).1 h1)
    rw [(contains_iff_mem _ c).2 hc1] at hc
    simp at hc

/-- With method sum and consistent indexes, `_agg_weight` returns the
quotient series. -/
theorem agg_weight_ok (data weight : Series)
    (h : indexRows (droplevel data ["variable", "unit"]) =
      indexRows (weightAligned weight)) :
    _agg_weight data weight (.str "sum") = .ok (aggWeightResult data weight) := by
  have hidx : (indexRows (droplevel data ["variable", "unit"]) ==
      indexRows (weightAligned weight)) = true := by simp [h]
  simp [_agg_weight, isSumMethod, hidx]

/-- Each group of the numerator sums the products of the data rows
projecting to the group key. -/
theorem aggWeightNum_group (data weight : Series) (t : Row) :
    sumFn (((dataTimesWeight data weight).rows.filter
      (fun q => proj (dataTimesWeight data weight).names
        (namesDifference data.names ["region"]) q.1 == t)).map (fun q => q.2))
      = sumRegionProd data weight t := by
  show sumFn ((List.filter _ (data.rows.map _)).map _) = _
  rw [List.filter_map, List.map_map]
  rfl

/-- Under the index precondition, the denominator holds an entry at the
projected key of every data row, carrying the claim's denominator sum. -/
theorem aggWeightDen_lookup (data weight : Series)
    (hn : weight.names = data.names)
    (h : indexRows (droplevel data ["variable", "unit"]) =
      indexRows (weightAligned weight))
    (p : Row × Rat) (hp : p ∈ data.rows) :
    (((aggWeightDen data weight).rows.find?
        (fun q => q.1 == proj (namesDifference data.names ["region"])
          (namesDifference data.names ["region", "variable", "unit"])
          (proj data.names (namesDifference data.names ["region"]) p.1))).map
      (fun q => q.2))
      = some (sumRegionWeight data weight
          (proj data.names (namesDifference data.names ["region"]) p.1)) := by
  have hsub12 : ∀ c ∈ namesDifference data.names ["region", "variable", "unit"],
      c ∈ namesDifference data.names ["region"] :=
    namesDifference_mono data.names _ _ (by decide)
  have hsub2d : ∀ c ∈ namesDifference data.names ["region", "variable", "unit"],
      c ∈ namesDifference data.names ["variable", "unit"] :=
    namesDifference_mono data.names _ _ (by decide)
  have hk : proj (namesDifference data.names ["region"])
      (namesDifference data.names ["region", "variable", "unit"])
      (proj data.names (namesDifference data.names ["region"]) p.1)
      = proj data.names (namesDifference data.names ["region", "variable", "unit"]) p.1 :=
    proj_proj _ _ _ _ hsub12
  have hwn : (weightAligned weight).names =
      namesDifference data.names ["variable", "unit"] := by
    show namesDifference weight.names _ = _
    rw [hn]
  have hexist : ∃ q ∈ (weightAligned weight).rows,
      proj (weightAligned weight).names
        (namesDifference data.names ["region", "variable", "unit"]) q.1
      = proj data.names (namesDifference data.names ["region", "variable", "unit"]) p.1 := by
    have hmem : proj data.names (namesDifference data.names ["variable", "unit"]) p.1
        ∈ indexRows (weightAligned weight) := by
      rw [← h]
      show _ ∈ ((data.rows.map _).map _)
      rw [List.map_map]
      exact List.mem_map.2 ⟨p, hp, rfl⟩
    rcases List.mem_map.1 hmem with ⟨q, hq, hq1⟩
    refine ⟨q, hq, ?_⟩
    rw [hwn, show q.1 = proj data.names
      (namesDifference data.names ["variable", "unit"]) p.1 from hq1]
    exact proj_proj data.names _ _ p.1 hsub2d
  rw [hk]
  rw [show aggWeightDen data weight = groupby (weightAligned weight)
    (namesDifference data.names ["region", "variable", "unit"]) sumFn from rfl]
  rw [find?_groupby _ _ _ _ hexist]
  refine congrArg some ?_
  show sumFn _ = (((weightAligned weight).rows.filter (fun q =>
      proj (weightAligned weight).names
        (namesDifference data.names ["region", "variable", "unit"]) q.1
      == proj (namesDifference data.names ["region"])
           (namesDifference data.names ["region", "variable", "unit"])
           (proj data.names (namesDifference data.names ["region"]) p.1))).map
    (fun q => q.2)).sum
  rw [hk]
  rfl

/-- C3: with method sum and the weight matching the data index after
dropping variable and unit, the weighted region aggregator returns, at each
key grouped over the dimensions except region, the sum of the data-times-
weight products divided by the weight summed over the dimensions excluding
region, variable and unit. -/
theorem agg_weight_formula (data weight : Series)
    (hn : weight.names = data.names)
    (h : indexRows (droplevel data ["variable", "unit"]) =
      indexRows (weightAligned weight)) :
    ∃ s, _agg_weight data weight (.str "sum") = .ok s ∧
      s.names = namesDifference data.names ["region"] ∧
      ∀ t v, (t, v) ∈ s.rows ↔
        ((∃ p ∈ data.rows,
            proj data.names (namesDifference data.names ["region"]) p.1 = t) ∧
          v = sumRegionProd data weight t / sumRegionWeight data weight t) := by
  refine ⟨aggWeightResult data weight, agg_weight_ok data weight h, rfl, ?_⟩
  intro t v
  constructor
  · intro hm
    rcases List.mem_map.1 hm with ⟨p, hp, he⟩
    rw [Prod.mk.injEq] at he
    obtain ⟨he1, he2⟩ := he
    subst he1
    have hgp := mem_groupby.1
      (show (p.1, p.2) ∈ (groupby (dataTimesWeight data weight)
        (namesDifference data.names ["region"]) sumFn).rows from hp)
    obtain ⟨⟨q, hq, hqproj⟩, hval⟩ := hgp
    have hex : ∃ p' ∈ data.rows,
        proj data.names (namesDifference data.names ["region"]) p'.1 = p.1 := by
      rcases List.mem_map.1 hq with ⟨r, hr, rfl⟩
      exact ⟨r, hr, hqproj⟩
    refine ⟨hex, ?_⟩
    rw [← he2, hval, aggWeightNum_group data weight p.1]
    obtain ⟨p0, hp0, hproj0⟩ := hex
    have hd := aggWeightDen_lookup data weight hn h p0 hp0
    rw [hproj0] at hd
    rw [hd, Option.getD_some]
  · rintro ⟨⟨p0, hp0, hproj0⟩, hv⟩
    subst hv
    have hnum_mem : (t, sumFn (((dataTimesWeight data weight).rows.filter
        (fun q => proj (dataTimesWeight data weight).names
          (namesDifference data.names ["region"]) q.1 == t)).map
        (fun q => q.2)))
        ∈ (aggWeightNum data weight).rows := by
      rw [show aggWeightNum data weight = groupby (dataTimesWeight data weight)
        (namesDifference data.names ["region"]) sumFn from rfl]
      refine mem_groupby.2 ⟨⟨(p0.1, p0.2 * ((((weightAligned weight).rows.find?
        (fun q => q.1 == proj data.names (weightAligned weight).names p0.1))).map
          (fun q => q.2)).getD 0), List.mem_map.2 ⟨p0, hp0, rfl⟩, ?_⟩, rfl⟩
      exact hproj0
    refine List.mem_map.2 ⟨_, hnum_mem, ?_⟩
    rw [Prod.mk.injEq]
    refine ⟨rfl, ?_⟩
    rw [aggWeightNum_group data weight t]
    have hd := aggWeightDen_lookup data weight hn h p0 hp0
    rw [hproj0] at hd
    rw [hd, Option.getD_some]

/-- C3 witness: the weighted-average formula instantiated on two regions
with weights 3 and 1. -/
theorem agg_weight_formula_witness :
    ∃ s, _agg_weight exdfR exdfWeight (.str "sum") = .ok s ∧
      s.names = namesDifference exdfR.names ["region"] ∧
      ∀ t v, (t, v) ∈ s.rows ↔
        ((∃ p ∈ exdfR.rows,
            proj exdfR.names (namesDifference exdfR.names ["region"]) p.1 = t) ∧
          v = sumRegionProd exdfR exdfWeight t /
            sumRegionWeight exdfR exdfWeight t) :=
  agg_weight_formula exdfR exdfWeight rfl (by decide)

/-- C1 witness: the characterization instantiated on the dataset with
children `A|B = 1` and `A|C = 2`. -/
theorem aggregate_single_sums_components_witness :
    ∃ s, _aggregate exdf (.single "A") none .npSum = .ok (some s) ∧
      s.names = exdf.names ∧
      ∀ t v, (t, v) ∈ s.rows ↔
        ((∃ p ∈ exdf.rows,
            coord exdf.names p.1 "variable" ∈ _variable_components exdf "A" ∧
            setCoord exdf.names p.1 "variable" "A" = t) ∧
          v = ((_variable_components exdf "A").map
            (fun c => valueAt exdf (setCoord exdf.names t "variable" c))).sum) :=
  aggregate_single_sums_components exdf "A" (by decide) (by decide) (by decide)

end PyamAgg
